import Mathlib

/-!
Verification of the libebml container ("master" element) engine against its
specification.  The shallow embedding below models the data and algorithms of
`EbmlMaster` (src/ebml/EbmlMaster.h) and, for the method bodies that the
repository only declares there (`Read`, `RenderData`, `UpdateSize`, `Sort`,
`CheckMandatory`, `ProcessMandatory`, `InsertElement`, `Remove`,
`VerifyChecksum`), models them from the specification (spec.md sections 4.1 to
4.5), as noted on each definition.  Bytes are `Nat` values below 256; machine
integers are `Nat` with explicit `2 ^ 64` wrap where the source relies on
unsigned overflow (`(0-1)` on `uint64`).
-/

namespace LibEbml

/-! ## Coded-size codec (external collaborator, spec section 2)

Modelled from the spec: the "Coded-Size Codec" encodes element sizes as
EBML variable-length integers.  An `n`-byte coding stores the marker bit
`2 ^ (7 * n)` plus the value in `n` big-endian bytes; the all-ones value
`2 ^ (7 * n) - 1` is the unknown-size marker and is rejected here (the
development covers finite-size elements, the case the claims quantify over).
-/

/-- The bytes `beBytes n v`: the `n` low-order bytes of `v`, most significant first. -/
def beBytes : Nat → Nat → List Nat
  | 0, _ => []
  | n + 1, v => (v / 256 ^ n) % 256 :: beBytes n v

/-- Value of a big-endian byte string. -/
def beVal : List Nat → Nat
  | [] => 0
  | b :: bs => b * 256 ^ bs.length + beVal bs

/-- Minimal number of bytes needed to code a size value, as in the
`CodedSizeLength` collaborator: an `n`-byte coding carries values up to
`2 ^ (7 * n) - 2` (the all-ones pattern is the unknown-size marker). -/
def codedSizeLength (v : Nat) : Nat :=
  if v < 127 then 1
  else if v < 16383 then 2
  else if v < 2097151 then 3
  else if v < 268435455 then 4
  else if v < 34359738367 then 5
  else if v < 4398046511103 then 6
  else if v < 562949953421311 then 7
  else 8

/-- The `n`-byte coding of size value `v`: marker bit plus value. -/
def codedSizeBytes (n v : Nat) : List Nat :=
  beBytes n (2 ^ (7 * n) + v)

/-- Length of a coded size as determined by its first byte
(`decodedLength(firstByte)` in the spec's codec interface). -/
def decodedSizeLength (b : Nat) : Option Nat :=
  if 256 ≤ b then none
  else if 128 ≤ b then some 1
  else if 64 ≤ b then some 2
  else if 32 ≤ b then some 3
  else if 16 ≤ b then some 4
  else if 8 ≤ b then some 5
  else if 4 ≤ b then some 6
  else if 2 ≤ b then some 7
  else if 1 ≤ b then some 8
  else none

/-- Split off exactly `n` leading bytes, or fail if fewer are available. -/
def takeExact (n : Nat) (l : List Nat) : Option (List Nat × List Nat) :=
  if n ≤ l.length then some (l.take n, l.drop n) else none

/-- Decode a coded size from the head of a byte string: returns the value, the
number of bytes the coding occupied, and the remaining bytes.  Fails on an
empty string, an invalid first byte, truncation, out-of-range byte values, or
the unknown-size marker. -/
def decodeSize : List Nat → Option (Nat × Nat × List Nat)
  | [] => none
  | b0 :: r1 =>
    (decodedSizeLength b0).bind fun n =>
      (takeExact (n - 1) r1).bind fun p =>
        if p.1.all (fun b => b < 256) then
          if beVal (b0 :: p.1) - 2 ^ (7 * n) = 2 ^ (7 * n) - 1 then none
          else some (beVal (b0 :: p.1) - 2 ^ (7 * n), n, p.2)
        else none

theorem beBytes_length (n v : Nat) : (beBytes n v).length = n := by
  induction n generalizing v with
  | zero => rfl
  | succ n ih => simp [beBytes, ih]

theorem beBytes_mem_lt {n v b : Nat} (h : b ∈ beBytes n v) : b < 256 := by
  induction n generalizing v with
  | zero => simp [beBytes] at h
  | succ n ih =>
    simp only [beBytes, List.mem_cons] at h
    rcases h with h | h
    · subst h; exact Nat.mod_lt _ (by norm_num)
    · exact ih h

theorem beVal_lt {l : List Nat} (h : ∀ b ∈ l, b < 256) :
    beVal l < 256 ^ l.length := by
  induction l with
  | nil => simp [beVal]
  | cons b bs ih =>
    have hb : b < 256 := h b (List.mem_cons_self b bs)
    have hbs := ih (fun x hx => h x (List.mem_cons_of_mem b hx))
    have h1 : b * 256 ^ bs.length + beVal bs < (b + 1) * 256 ^ bs.length := by
      have hsm : (b + 1) * 256 ^ bs.length = b * 256 ^ bs.length + 256 ^ bs.length := by
        ring
      omega
    calc beVal (b :: bs) = b * 256 ^ bs.length + beVal bs := rfl
      _ < (b + 1) * 256 ^ bs.length := h1
      _ ≤ 256 * 256 ^ bs.length :=
          Nat.mul_le_mul_right _ (by omega)
      _ = 256 ^ (b :: bs).length := by
          simp [List.length_cons, Nat.pow_succ, Nat.mul_comm]

theorem beVal_beBytes (n v : Nat) : beVal (beBytes n v) = v % 256 ^ n := by
  induction n generalizing v with
  | zero => simp [beBytes, beVal, Nat.mod_one]
  | succ n ih =>
    have hmul : v % (256 ^ n * 256) = v % 256 ^ n + 256 ^ n * (v / 256 ^ n % 256) :=
      Nat.mod_mul
    calc beVal (beBytes (n + 1) v)
        = (v / 256 ^ n % 256) * 256 ^ (beBytes n v).length + beVal (beBytes n v) := rfl
      _ = (v / 256 ^ n % 256) * 256 ^ n + v % 256 ^ n := by rw [beBytes_length, ih]
      _ = v % 256 ^ (n + 1) := by rw [Nat.pow_succ, hmul]; ring

theorem beBytes_add_mul (n a v : Nat) :
    beBytes n (a * 256 ^ n + v) = beBytes n v := by
  induction n generalizing a with
  | zero => rfl
  | succ n ih =>
    have hdiv : (a * 256 ^ (n + 1) + v) / 256 ^ n = a * 256 + v / 256 ^ n := by
      have : a * 256 ^ (n + 1) + v = v + (a * 256) * 256 ^ n := by ring
      rw [this, Nat.add_mul_div_right _ _ (Nat.pos_pow_of_pos n (by norm_num))]
      ring
    have hmod : (a * 256 + v / 256 ^ n) % 256 = v / 256 ^ n % 256 := by
      rw [Nat.mul_comm]
      exact Nat.mul_add_mod 256 a _
    have hrest : a * 256 ^ (n + 1) + v = (a * 256) * 256 ^ n + v := by ring
    simp only [beBytes, hdiv, hmod]
    rw [hrest, ih]

theorem beBytes_beVal {l : List Nat} (h : ∀ b ∈ l, b < 256) :
    beBytes l.length (beVal l) = l := by
  induction l with
  | nil => rfl
  | cons b bs ih =>
    have hb : b < 256 := h b (List.mem_cons_self b bs)
    have hbs : ∀ x ∈ bs, x < 256 := fun x hx => h x (List.mem_cons_of_mem b hx)
    have hv : beVal bs < 256 ^ bs.length := beVal_lt hbs
    have hdiv : (b * 256 ^ bs.length + beVal bs) / 256 ^ bs.length = b := by
      rw [Nat.add_comm, Nat.add_mul_div_right _ _ (Nat.pos_pow_of_pos _ (by norm_num)),
        Nat.div_eq_of_lt hv, Nat.zero_add]
    have hw : beVal (b :: bs) = b * 256 ^ bs.length + beVal bs := rfl
    show beBytes (bs.length + 1) (beVal (b :: bs)) = b :: bs
    rw [hw, beBytes, hdiv, Nat.mod_eq_of_lt hb, beBytes_add_mul, ih hbs]

theorem size_pow_facts {n : Nat} (h1 : 1 ≤ n) (h8 : n ≤ 8) :
    2 ^ (8 - n) * 256 ^ (n - 1) = 2 ^ (7 * n) ∧
    2 ^ (9 - n) * 256 ^ (n - 1) = 2 * 2 ^ (7 * n) ∧
    2 ^ (9 - n) ≤ 256 ∧ 2 ^ (9 - n) = 2 * 2 ^ (8 - n) := by
  interval_cases n <;> norm_num

theorem codedSizeLength_pos (v : Nat) : 1 ≤ codedSizeLength v := by
  unfold codedSizeLength
  split_ifs <;> omega

theorem codedSizeLength_le_eight (v : Nat) : codedSizeLength v ≤ 8 := by
  unfold codedSizeLength
  split_ifs <;> omega

theorem codedSizeLength_le {v n : Nat} (h1 : 1 ≤ n) (h8 : n ≤ 8)
    (hv : v < 2 ^ (7 * n) - 1) : codedSizeLength v ≤ n := by
  unfold codedSizeLength
  interval_cases n <;> norm_num at hv <;> split_ifs <;> omega

theorem codedSizeLength_lt (v : Nat) (hv : v < 2 ^ 56 - 1) :
    v < 2 ^ (7 * codedSizeLength v) - 1 := by
  unfold codedSizeLength
  split_ifs <;> norm_num <;> omega

theorem decodedSizeLength_bounds {b n : Nat} (h : decodedSizeLength b = some n) :
    1 ≤ n ∧ n ≤ 8 ∧ 2 ^ (8 - n) ≤ b ∧ b < 2 ^ (9 - n) := by
  unfold decodedSizeLength at h
  split_ifs at h
  all_goals first
    | exact Option.noConfusion h
    | (injection h with h; subst h;
       exact ⟨by norm_num, by norm_num, by norm_num; omega, by norm_num; omega⟩)

theorem decodedSizeLength_eq {b n : Nat} (h1 : 1 ≤ n) (h8 : n ≤ 8)
    (hlo : 2 ^ (8 - n) ≤ b) (hhi : b < 2 ^ (9 - n)) :
    decodedSizeLength b = some n := by
  unfold decodedSizeLength
  interval_cases n
  all_goals norm_num at hlo hhi
  all_goals split_ifs <;> first | rfl | (exfalso; omega)

theorem takeExact_eq {n : Nat} {l a b : List Nat}
    (h : takeExact n l = some (a, b)) : a ++ b = l ∧ a.length = n := by
  unfold takeExact at h
  split_ifs at h with hn
  simp only [Option.some.injEq, Prod.mk.injEq] at h
  obtain ⟨rfl, rfl⟩ := h
  exact ⟨List.take_append_drop n l, List.length_take_of_le hn⟩

theorem takeExact_append {n : Nat} {a b : List Nat} (h : a.length = n) :
    takeExact n (a ++ b) = some (a, b) := by
  subst h
  unfold takeExact
  rw [if_pos (by simp), List.take_left, List.drop_left]

/-- A successfully decoded coded size re-encodes, at the width it was read at,
to exactly the bytes it was read from. -/
theorem decodeSize_sound {bs : List Nat} {v n : Nat} {rest : List Nat}
    (h : decodeSize bs = some (v, n, rest)) :
    codedSizeBytes n v ++ rest = bs ∧ codedSizeLength v ≤ n ∧ 1 ≤ n ∧ n ≤ 8 := by
  match bs with
  | [] => exact Option.noConfusion h
  | b0 :: r1 =>
    rw [decodeSize, Option.bind_eq_some] at h
    obtain ⟨m, hdl, h⟩ := h
    rw [Option.bind_eq_some] at h
    obtain ⟨⟨tail, rest'⟩, hte, h⟩ := h
    obtain ⟨hm1, hm8, hblo, hbhi⟩ := decodedSizeLength_bounds hdl
    obtain ⟨htr, htl⟩ := takeExact_eq hte
    simp only at h
    split_ifs at h with hall hmark
    simp only [Option.some.injEq, Prod.mk.injEq] at h
    obtain ⟨hv, hn, hrest⟩ := h
    subst hrest
    rw [← hn]
    have htail256 : ∀ x ∈ tail, x < 256 := by
      intro x hx
      have := List.all_eq_true.mp hall x hx
      exact of_decide_eq_true this
    have hb256 : b0 < 256 := by
      have hle : 2 ^ (9 - m) ≤ 2 ^ 8 := Nat.pow_le_pow_right (by norm_num) (by omega)
      omega
    have hcons256 : ∀ x ∈ b0 :: tail, x < 256 := by
      intro x hx
      rcases List.mem_cons.mp hx with rfl | hx
      · exact hb256
      · exact htail256 x hx
    obtain ⟨hAQ, hBQ, _, hBA⟩ := size_pow_facts hm1 hm8
    have hQpos : 0 < 256 ^ (m - 1) := Nat.pos_pow_of_pos _ (by norm_num)
    have htv : beVal tail < 256 ^ (m - 1) := by
      have := beVal_lt htail256
      rwa [htl] at this
    have hwval : beVal (b0 :: tail) = b0 * 256 ^ (m - 1) + beVal tail := by
      show b0 * 256 ^ tail.length + beVal tail = _
      rw [htl]
    have hk1 : 2 ^ (8 - m) * 256 ^ (m - 1) ≤ b0 * 256 ^ (m - 1) :=
      Nat.mul_le_mul_right _ hblo
    have hk2 : b0 * 256 ^ (m - 1) + 256 ^ (m - 1) ≤ 2 ^ (9 - m) * 256 ^ (m - 1) := by
      have hb1 : b0 + 1 ≤ 2 ^ (9 - m) := hbhi
      calc b0 * 256 ^ (m - 1) + 256 ^ (m - 1)
          = (b0 + 1) * 256 ^ (m - 1) := by ring
        _ ≤ 2 ^ (9 - m) * 256 ^ (m - 1) := Nat.mul_le_mul_right _ hb1
    have hwlo : 2 ^ (7 * m) ≤ beVal (b0 :: tail) := by omega
    have hwhi : beVal (b0 :: tail) < 2 * 2 ^ (7 * m) := by omega
    have hvlt : v < 2 ^ (7 * m) - 1 := by omega
    have hrecon : 2 ^ (7 * m) + v = beVal (b0 :: tail) := by omega
    have hlen : (b0 :: tail).length = m := by
      simp only [List.length_cons, htl]
      omega
    have henc : codedSizeBytes m v ++ rest' = b0 :: r1 := by
      unfold codedSizeBytes
      rw [hrecon, ← hlen, beBytes_beVal hcons256]
      rw [← htr]
      rfl
    exact ⟨henc, codedSizeLength_le hm1 hm8 hvlt, hm1, hm8⟩

/-- Encoding a finite size value at any legal width and then decoding returns
the value, the width, and the untouched trailing bytes. -/
theorem decodeSize_complete {n v : Nat} (h1 : 1 ≤ n) (h8 : n ≤ 8)
    (hv : v < 2 ^ (7 * n) - 1) (rest : List Nat) :
    decodeSize (codedSizeBytes n v ++ rest) = some (v, n, rest) := by
  obtain ⟨hAQ, hBQ, hB256, hBA⟩ := size_pow_facts h1 h8
  obtain ⟨m, rfl⟩ : ∃ m, n = m + 1 := ⟨n - 1, by omega⟩
  have hQpos : 0 < 256 ^ m := Nat.pos_pow_of_pos _ (by norm_num)
  have hm : m + 1 - 1 = m := by omega
  rw [hm] at hAQ hBQ
  have hsplit : 2 ^ (7 * (m + 1)) + v = v + 2 ^ (8 - (m + 1)) * 256 ^ m := by omega
  have hdiv : (2 ^ (7 * (m + 1)) + v) / 256 ^ m = 2 ^ (8 - (m + 1)) + v / 256 ^ m := by
    rw [hsplit, Nat.add_mul_div_right _ _ hQpos, Nat.add_comm]
  have hvdiv : v / 256 ^ m < 2 ^ (8 - (m + 1)) := by
    rw [Nat.div_lt_iff_lt_mul hQpos]
    omega
  have hb0lo : 2 ^ (8 - (m + 1)) ≤ (2 ^ (7 * (m + 1)) + v) / 256 ^ m := by
    rw [hdiv]; exact Nat.le_add_right _ _
  have hb0hi : (2 ^ (7 * (m + 1)) + v) / 256 ^ m < 2 ^ (9 - (m + 1)) := by
    rw [hdiv]; omega
  have hb0small : (2 ^ (7 * (m + 1)) + v) / 256 ^ m < 256 := by omega
  have hb0mod : (2 ^ (7 * (m + 1)) + v) / 256 ^ m % 256
      = (2 ^ (7 * (m + 1)) + v) / 256 ^ m := Nat.mod_eq_of_lt hb0small
  have hbytes : codedSizeBytes (m + 1) v
      = (2 ^ (7 * (m + 1)) + v) / 256 ^ m :: beBytes m (2 ^ (7 * (m + 1)) + v) := by
    unfold codedSizeBytes
    rw [beBytes, hb0mod]
  rw [hbytes, List.cons_append, decodeSize]
  rw [decodedSizeLength_eq (b := (2 ^ (7 * (m + 1)) + v) / 256 ^ m)
    (by omega) (by omega) hb0lo hb0hi]
  rw [Option.some_bind]
  rw [hm, takeExact_append (beBytes_length m _), Option.some_bind]
  have hall : (beBytes m (2 ^ (7 * (m + 1)) + v)).all (fun b => b < 256) = true := by
    rw [List.all_eq_true]
    intro x hx
    exact decide_eq_true (beBytes_mem_lt hx)
  simp only
  rw [if_pos hall]
  have h256Q : 2 ^ (9 - (m + 1)) * 256 ^ m ≤ 256 * 256 ^ m :=
    mul_le_mul_right' hB256 _
  have hcomm : 256 ^ m * 256 = 256 * 256 ^ m := Nat.mul_comm _ _
  have hwQ : 2 ^ (7 * (m + 1)) + v < 256 ^ m * 256 := by omega
  have hval : beVal ((2 ^ (7 * (m + 1)) + v) / 256 ^ m
      :: beBytes m (2 ^ (7 * (m + 1)) + v)) = 2 ^ (7 * (m + 1)) + v := by
    show (2 ^ (7 * (m + 1)) + v) / 256 ^ m * 256 ^ (beBytes m (2 ^ (7 * (m + 1)) + v)).length
        + beVal (beBytes m (2 ^ (7 * (m + 1)) + v)) = 2 ^ (7 * (m + 1)) + v
    rw [beBytes_length, beVal_beBytes,
      Nat.mul_comm ((2 ^ (7 * (m + 1)) + v) / 256 ^ m) (256 ^ m)]
    exact Nat.div_add_mod _ _
  rw [hval]
  rw [if_neg (by omega)]
  have hfin : 2 ^ (7 * (m + 1)) + v - 2 ^ (7 * (m + 1)) = v := by omega
  rw [hfin]

/-! ## Element trees

The element tree of spec section 3: a node is a leaf value or a master
(container) holding an ordered child list.  Each node carries its identifier
(modelled as a one-byte class-A EBML id, the "fixed encoded width" case of
spec 4.2), the width its size field was read with or should be written with
(`SizeLength` in the source; `0` means "minimal"), and the cached resolved
content size `dataSize` of spec section 3 (valid only after `UpdateSize`).
-/

inductive Elt where
  | leaf (id sizeLen dataSize : Nat) (data : List Nat)
  | master (id sizeLen dataSize : Nat) (children : List Elt)

/-- The element's identifier (type tag). -/
def eltId : Elt → Nat
  | .leaf i _ _ _ => i
  | .master i _ _ _ => i

/-- The stored width of the element's size field (`GetSizeLength`). -/
def eltSizeLen : Elt → Nat
  | .leaf _ sl _ _ => sl
  | .master _ sl _ _ => sl

/-- The cached resolved content size (the `dataSize` field of spec section 3). -/
def eltDataSize : Elt → Nat
  | .leaf _ _ dS _ => dS
  | .master _ _ dS _ => dS

/-- Width actually used for an element's size field: the minimal coded width
for the value, widened to the stored `SizeLength` when that is larger — the
`CodedSizeLength(GetSize(), GetSizeLength(), ...)` pattern visible in
`EbmlMaster::GetDataStart` (src/ebml/EbmlMaster.h line 82). -/
def sizeFieldWidth (v sl : Nat) : Nat :=
  max (codedSizeLength v) sl

/-! ## Rendering

Modelled from the spec (section 4.3): `renderElement` emits one element's
identifier, its coded size, then its content; `RenderData` is
`EbmlMaster::RenderData`, the content of a master: each child's full
rendering in list order.  Checksums are disabled (`bChecksumUsedByDefault =
false`, src/ebml/EbmlMaster.h line 48); the checksum state is modelled on
`EbmlMasterState` below. -/

mutual

def renderElement : Elt → List Nat
  | .leaf i sl _ d =>
    i :: (codedSizeBytes (sizeFieldWidth d.length sl) d.length ++ d)
  | .master i sl _ cs =>
    i :: (codedSizeBytes (sizeFieldWidth (RenderData cs).length sl)
      (RenderData cs).length ++ RenderData cs)

def RenderData : List Elt → List Nat
  | [] => []
  | e :: es => renderElement e ++ RenderData es

end

/-! ## Reading

Modelled from the spec (section 4.1): the recursive-descent reader.  The
"Semantic Context provider" collaborator is modelled as two queries: is an
identifier's type a container, and is it a legal child of the enclosing
container type.  `readElement` reads one child element (identifier byte, coded
size, content, recursing when the type is a container); `Read` is
`EbmlMaster::Read`: it consumes a master's content, reading children until the
declared byte budget is exhausted.  Recursion is bounded by explicit fuel;
any successful parse is independent of the exact fuel supplied.  A child
whose declared size overruns the enclosing budget, an identifier that is not
legal in the current context, or an unknown-size marker make the read fail
(the development covers the finite-size reading path the claims quantify
over). -/

structure SemInfo where
  isCont : Nat → Bool
  legal : Nat → Nat → Bool

mutual

def readElement (S : SemInfo) (pid : Nat) : Nat → List Nat → Option (Elt × List Nat)
  | 0, _ => none
  | _ + 1, [] => none
  | fuel + 1, idb :: r1 =>
    if 128 ≤ idb ∧ idb ≤ 254 ∧ S.legal pid idb = true then
      (decodeSize r1).bind fun w =>
        (takeExact w.1 w.2.2).bind fun p =>
          if S.isCont idb then
            (Read S idb fuel p.1).bind fun cs =>
              some (Elt.master idb w.2.1 w.1 cs, p.2)
          else
            some (Elt.leaf idb w.2.1 w.1 p.1, p.2)
    else none

def Read (S : SemInfo) (pid : Nat) : Nat → List Nat → Option (List Elt)
  | _, [] => some []
  | 0, _ :: _ => none
  | fuel + 1, b :: bs =>
    (readElement S pid fuel (b :: bs)).bind fun q =>
      (Read S pid fuel q.2).bind fun es =>
        some (q.1 :: es)

end

/-- Joint induction behind the round-trip law: whatever `readElement` or
`Read` accepted re-renders to exactly the bytes consumed. -/
theorem read_render_aux (S : SemInfo) :
    ∀ fuel : Nat,
      (∀ pid bytes e rest, readElement S pid fuel bytes = some (e, rest) →
        renderElement e ++ rest = bytes) ∧
      (∀ pid bytes es, Read S pid fuel bytes = some es →
        RenderData es = bytes) := by
  intro fuel
  induction fuel with
  | zero =>
    constructor
    · intro pid bytes e rest h
      match bytes with
      | [] => exact Option.noConfusion h
      | b :: bs => exact Option.noConfusion h
    · intro pid bytes es h
      match bytes with
      | [] =>
        injection h with h
        subst h
        rfl
      | b :: bs => exact Option.noConfusion h
  | succ fuel ih =>
    constructor
    · intro pid bytes e rest h
      match bytes with
      | [] => exact Option.noConfusion h
      | idb :: r1 =>
        rw [readElement] at h
        split_ifs at h with hleg hc
        · rw [Option.bind_eq_some] at h
          obtain ⟨⟨v, n, r2⟩, hdec, h⟩ := h
          rw [Option.bind_eq_some] at h
          obtain ⟨⟨slice, r3⟩, htk, h⟩ := h
          rw [Option.bind_eq_some] at h
          obtain ⟨cs, hrd, h⟩ := h
          simp only [Option.some.injEq, Prod.mk.injEq] at h htk
          obtain ⟨he, hr⟩ := h
          subst he
          subst hr
          obtain ⟨hbytes, hcsl, hn1, hn8⟩ := decodeSize_sound hdec
          obtain ⟨hsl, hlen⟩ := takeExact_eq htk
          have hw : sizeFieldWidth v n = n := Nat.max_eq_right hcsl
          have hrender : RenderData cs = slice := (ih.2) idb slice cs hrd
          show renderElement (Elt.master idb n v cs) ++ r3 = idb :: r1
          rw [renderElement, hrender, hlen, hw]
          simp only [List.cons_append, List.append_assoc]
          rw [hsl, hbytes]
        · rw [Option.bind_eq_some] at h
          obtain ⟨⟨v, n, r2⟩, hdec, h⟩ := h
          rw [Option.bind_eq_some] at h
          obtain ⟨⟨slice, r3⟩, htk, h⟩ := h
          simp only [Option.some.injEq, Prod.mk.injEq] at h htk
          obtain ⟨he, hr⟩ := h
          subst he
          subst hr
          obtain ⟨hbytes, hcsl, hn1, hn8⟩ := decodeSize_sound hdec
          obtain ⟨hsl, hlen⟩ := takeExact_eq htk
          have hw : sizeFieldWidth v n = n := Nat.max_eq_right hcsl
          show renderElement (Elt.leaf idb n v slice) ++ r3 = idb :: r1
          rw [renderElement, hlen, hw]
          simp only [List.cons_append, List.append_assoc]
          rw [hsl, hbytes]
    · intro pid bytes es h
      match bytes with
      | [] =>
        injection h with h
        subst h
        rfl
      | b :: bs =>
        rw [Read, Option.bind_eq_some] at h
        obtain ⟨⟨e, rest⟩, hre, h⟩ := h
        rw [Option.bind_eq_some] at h
        obtain ⟨es', hrd, h⟩ := h
        injection h with h
        subst h
        have h1 : renderElement e ++ rest = b :: bs := (ih.1) pid (b :: bs) e rest hre
        have h2 : RenderData es' = rest := (ih.2) pid rest es' hrd
        show renderElement e ++ RenderData es' = b :: bs
        rw [h2, h1]

/-- Claim C2: for any well-formed byte sequence with no unknown-size
containers (any sequence `Read` accepts — the reader rejects unknown-size
markers), reading it into a tree with `Read` and then rendering that tree
with `RenderData`, with no mutation in between, reproduces exactly the
original bytes. -/
theorem read_renderData_roundtrip (S : SemInfo) (pid fuel : Nat)
    (bytes : List Nat) (es : List Elt)
    (h : Read S pid fuel bytes = some es) :
    RenderData es = bytes :=
  (read_render_aux S fuel).2 pid bytes es h

theorem read_renderData_roundtrip_witness :
    Read ⟨fun i => i == 160, fun _ _ => true⟩ 0 6 [160, 131, 129, 129, 7]
        = some [Elt.master 160 1 3 [Elt.leaf 129 1 1 [7]]] ∧
      RenderData [Elt.master 160 1 3 [Elt.leaf 129 1 1 [7]]]
        = [160, 131, 129, 129, 7] :=
  ⟨by rfl, read_renderData_roundtrip ⟨fun i => i == 160, fun _ _ => true⟩ 0 6
    [160, 131, 129, 129, 7] [Elt.master 160 1 3 [Elt.leaf 129 1 1 [7]]] (by rfl)⟩

/-- Claim C4: the size field a finite-size container's rendering declares in
its header equals the actual number of content bytes emitted for it (its own
header excluded): decoding the header's size field back yields exactly the
length of the `RenderData` output, with the content following it. -/
theorem renderData_declared_size (i sl dS : Nat) (cs : List Elt)
    (hsl : sl ≤ 8) (hlen : (RenderData cs).length < 2 ^ 56 - 1) :
    decodeSize ((renderElement (Elt.master i sl dS cs)).drop 1)
      = some ((RenderData cs).length,
          sizeFieldWidth (RenderData cs).length sl, RenderData cs) := by
  have h1 : 1 ≤ sizeFieldWidth (RenderData cs).length sl :=
    le_trans (codedSizeLength_pos _) (Nat.le_max_left _ _)
  have h8 : sizeFieldWidth (RenderData cs).length sl ≤ 8 :=
    Nat.max_le.mpr ⟨codedSizeLength_le_eight _, hsl⟩
  have hcw : codedSizeLength (RenderData cs).length
      ≤ sizeFieldWidth (RenderData cs).length sl := Nat.le_max_left _ _
  have hmono : 2 ^ (7 * codedSizeLength (RenderData cs).length)
      ≤ 2 ^ (7 * sizeFieldWidth (RenderData cs).length sl) :=
    Nat.pow_le_pow_right (by norm_num) (by omega)
  have hself := codedSizeLength_lt (RenderData cs).length hlen
  have hv : (RenderData cs).length
      < 2 ^ (7 * sizeFieldWidth (RenderData cs).length sl) - 1 := by omega
  have hdrop : (renderElement (Elt.master i sl dS cs)).drop 1
      = codedSizeBytes (sizeFieldWidth (RenderData cs).length sl)
          (RenderData cs).length ++ RenderData cs := by
    rw [renderElement]
    rfl
  rw [hdrop]
  exact decodeSize_complete h1 h8 hv _

theorem renderData_declared_size_witness :
    (1 : Nat) ≤ 8 ∧ (RenderData [Elt.leaf 129 1 1 [7]]).length < 2 ^ 56 - 1 ∧
      decodeSize ((renderElement (Elt.master 160 1 3 [Elt.leaf 129 1 1 [7]])).drop 1)
        = some ((RenderData [Elt.leaf 129 1 1 [7]]).length,
            sizeFieldWidth (RenderData [Elt.leaf 129 1 1 [7]]).length 1,
            RenderData [Elt.leaf 129 1 1 [7]]) :=
  ⟨by decide, by decide,
    renderData_declared_size 160 1 3 [Elt.leaf 129 1 1 [7]] (by decide) (by decide)⟩

/-! ## Size resolution

Modelled from the spec (section 4.2): `UpdateSize` resolves an element's
content size bottom-up and refreshes the cached `dataSize` on every node.
For a leaf the size comes directly from its current value.  For a master in
authoritative mode (`bForceRender = true`) children are re-resolved
recursively and summed as header plus content; in the fast estimate mode
(`bForceRender = false`) each child is assumed to keep its previously cached
size.  Checksums are disabled (`bChecksumUsedByDefault = false`). -/

/-- On-wire size of one child whose content size is `v`: one identifier byte
plus its size field plus the content is `headSize v sl + v`. -/
def headSize (v sl : Nat) : Nat :=
  1 + sizeFieldWidth v sl

/-- Estimate-mode total for a child list: every child keeps its cached
`dataSize`. -/
def cachedTotal : List Elt → Nat
  | [] => 0
  | e :: es => headSize (eltDataSize e) (eltSizeLen e) + eltDataSize e + cachedTotal es

mutual

def UpdateSize (bForceRender : Bool) : Elt → Elt × Nat
  | .leaf i sl _ d => (.leaf i sl d.length d, d.length)
  | .master i sl _ cs =>
    if bForceRender then
      (.master i sl (UpdateSizeList bForceRender cs).2 (UpdateSizeList bForceRender cs).1,
        (UpdateSizeList bForceRender cs).2)
    else
      (.master i sl (cachedTotal cs) cs, cachedTotal cs)

def UpdateSizeList (bForceRender : Bool) : List Elt → List Elt × Nat
  | [] => ([], 0)
  | e :: es =>
    ((UpdateSize bForceRender e).1 :: (UpdateSizeList bForceRender es).1,
      headSize (UpdateSize bForceRender e).2 (eltSizeLen e)
        + (UpdateSize bForceRender e).2 + (UpdateSizeList bForceRender es).2)

end

theorem eltSizeLen_UpdateSize (force : Bool) (e : Elt) :
    eltSizeLen (UpdateSize force e).1 = eltSizeLen e := by
  cases e <;> cases force <;> rfl

mutual

theorem UpdateSize_idem (e : Elt) :
    UpdateSize true (UpdateSize true e).1 = UpdateSize true e := by
  cases e with
  | leaf i sl dS d => rfl
  | master i sl dS cs =>
    simp only [UpdateSize, if_true, UpdateSizeList_idem cs]

theorem UpdateSizeList_idem (l : List Elt) :
    UpdateSizeList true (UpdateSizeList true l).1 = UpdateSizeList true l := by
  cases l with
  | nil => rfl
  | cons e es =>
    simp only [UpdateSizeList, UpdateSize_idem e, UpdateSizeList_idem es,
      eltSizeLen_UpdateSize]

end

/-- Claim C3: `UpdateSize` with `bForceRender = true` is a fixpoint — run
twice in succession on a stable tree it returns the same resolved size, and
the refreshed tree itself is unchanged by the second run. -/
theorem updateSize_fixpoint (e : Elt) :
    (UpdateSize true (UpdateSize true e).1).2 = (UpdateSize true e).2 ∧
      UpdateSize true (UpdateSize true e).1 = UpdateSize true e :=
  ⟨congrArg Prod.snd (UpdateSize_idem e), UpdateSize_idem e⟩

/-! ## Child insertion and removal

Modelled from the spec (section 4.4): positional insertion (an out-of-range
position appends) and index deletion (an out-of-range index is a no-op). -/

def InsertElement (l : List Elt) (e : Elt) (position : Nat) : List Elt :=
  l.take position ++ e :: l.drop position

def Remove (l : List Elt) (i : Nat) : List Elt :=
  l.take i ++ l.drop (i + 1)

theorem Remove_InsertElement (l : List Elt) (e : Elt) (p : Nat) :
    Remove (InsertElement l e p) (min p l.length) = l := by
  induction l generalizing p with
  | nil => cases p <;> rfl
  | cons x xs ih =>
    cases p with
    | zero => simp [InsertElement, Remove]
    | succ q =>
      simp only [InsertElement, Remove, List.take_succ_cons, List.drop_succ_cons,
        List.length_cons, Nat.succ_min_succ, List.cons_append]
      rw [← InsertElement, ← Remove, ih q]

/-- Claim C7: inserting a child at any position and then removing that same
child (the entry at the position it landed at) restores the result of
`UpdateSize` to exactly its pre-insertion value. -/
theorem insert_remove_updateSize (force : Bool) (i sl dS : Nat)
    (cs : List Elt) (e : Elt) (p : Nat) :
    UpdateSize force (Elt.master i sl dS
        (Remove (InsertElement cs e p) (min p cs.length)))
      = UpdateSize force (Elt.master i sl dS cs) := by
  rw [Remove_InsertElement]

/-! ## Semantic context and canonical-order sort

The "Semantic Context" collaborator (spec section 3): the schema's ordered
list of legal child type descriptors for a container type, each marked
mandatory or not.  Its list order is the canonical type order. -/

structure SemEntry where
  id : Nat
  mandatory : Bool

abbrev SemanticContext := List SemEntry

/-- Canonical rank of an element's type: the position of its identifier in
the context's ordered descriptor list (types the schema does not list rank
last). -/
def typeRank (ctx : SemanticContext) (e : Elt) : Nat :=
  ctx.findIdx (fun s => s.id == eltId e)

/-- Stable insertion into a child list ordered by canonical rank: the new
element goes before the first entry of equal or higher rank, hence after all
earlier entries of its own type. -/
def insertByRank (ctx : SemanticContext) (x : Elt) : List Elt → List Elt
  | [] => [x]
  | y :: ys =>
    if typeRank ctx y < typeRank ctx x then y :: insertByRank ctx x ys
    else x :: y :: ys

/-- Modelled from the spec (section 4.4): `EbmlMaster::Sort` reorders the
child list into the schema's canonical type order as a stable insertion
sort. -/
def Sort' (ctx : SemanticContext) : List Elt → List Elt
  | [] => []
  | x :: xs => insertByRank ctx x (Sort' ctx xs)

theorem typeRank_congr (ctx : SemanticContext) {a b : Elt}
    (h : eltId a = eltId b) : typeRank ctx a = typeRank ctx b := by
  unfold typeRank
  rw [h]

theorem filter_insertByRank (ctx : SemanticContext) (x : Elt) (t : Nat)
    (l : List Elt) :
    (insertByRank ctx x l).filter (fun e => eltId e == t)
      = (x :: l).filter (fun e => eltId e == t) := by
  induction l with
  | nil => rfl
  | cons y ys ih =>
    rw [insertByRank]
    split_ifs with hlt
    · by_cases hxt : (eltId x == t) = true
      · by_cases hyt : (eltId y == t) = true
        · exfalso
          have hxy : eltId y = eltId x := by
            rw [eq_of_beq hyt, eq_of_beq hxt]
          have := typeRank_congr ctx hxy
          omega
        · simp only [List.filter_cons, hyt, hxt, ih, Bool.false_eq_true, if_false, if_true]
      · by_cases hyt : (eltId y == t) = true
        · simp only [List.filter_cons, hyt, hxt, ih, Bool.false_eq_true, if_false, if_true]
        · simp only [List.filter_cons, hyt, hxt, ih, Bool.false_eq_true, if_false]
    · rfl

/-- Stability of the canonical-order sort: for every type, the subsequence of
children of that type is unchanged. -/
theorem filter_Sort' (ctx : SemanticContext) (t : Nat) (l : List Elt) :
    (Sort' ctx l).filter (fun e => eltId e == t)
      = l.filter (fun e => eltId e == t) := by
  induction l with
  | nil => rfl
  | cons x xs ih =>
    rw [Sort', filter_insertByRank, List.filter_cons, List.filter_cons, ih]

theorem mem_insertByRank (ctx : SemanticContext) (x : Elt) (l : List Elt)
    (z : Elt) : z ∈ insertByRank ctx x l ↔ z = x ∨ z ∈ l := by
  induction l with
  | nil => simp [insertByRank]
  | cons y ys ih =>
    rw [insertByRank]
    split_ifs with hlt
    · simp only [List.mem_cons, ih]
      tauto
    · simp only [List.mem_cons]

theorem pairwise_insertByRank (ctx : SemanticContext) (x : Elt) (l : List Elt)
    (h : l.Pairwise (fun a b => typeRank ctx a ≤ typeRank ctx b)) :
    (insertByRank ctx x l).Pairwise (fun a b => typeRank ctx a ≤ typeRank ctx b) := by
  induction l with
  | nil => simp [insertByRank]
  | cons y ys ih =>
    rw [List.pairwise_cons] at h
    obtain ⟨hy, hys⟩ := h
    rw [insertByRank]
    split_ifs with hlt
    · rw [List.pairwise_cons]
      refine ⟨?_, ih hys⟩
      intro z hz
      rcases (mem_insertByRank ctx x ys z).mp hz with rfl | hz
      · omega
      · exact hy z hz
    · rw [List.pairwise_cons]
      refine ⟨?_, List.Pairwise.cons hy hys⟩
      intro z hz
      rcases List.mem_cons.mp hz with rfl | hz
      · omega
      · have := hy z hz
        omega

/-- The sorted child list is in canonical rank order. -/
theorem pairwise_Sort' (ctx : SemanticContext) (l : List Elt) :
    (Sort' ctx l).Pairwise (fun a b => typeRank ctx a ≤ typeRank ctx b) := by
  induction l with
  | nil => simp [Sort']
  | cons x xs ih =>
    rw [Sort']
    exact pairwise_insertByRank ctx x _ ih

/-- Claim C6: `Sort'` reorders the child list into the schema's canonical
type order as a stable sort — the result is ordered by canonical rank, for
every child list the children of each type keep their original relative
order, and in particular children of types `[B, A, B, C]` under canonical
order `[A, B, C]` become `[A, B, B, C]` with the two `B` children (told apart
by their payloads) in their original relative order. -/
theorem sort_stable_canonical :
    (∀ (ctx : SemanticContext) (l : List Elt),
      (Sort' ctx l).Pairwise (fun a b => typeRank ctx a ≤ typeRank ctx b)) ∧
    (∀ (ctx : SemanticContext) (l : List Elt) (t : Nat),
      (Sort' ctx l).filter (fun e => eltId e == t)
        = l.filter (fun e => eltId e == t)) ∧
    Sort' [⟨129, false⟩, ⟨130, false⟩, ⟨131, false⟩]
        [Elt.leaf 130 0 0 [1], Elt.leaf 129 0 0 [], Elt.leaf 130 0 0 [2],
          Elt.leaf 131 0 0 []]
      = [Elt.leaf 129 0 0 [], Elt.leaf 130 0 0 [1], Elt.leaf 130 0 0 [2],
          Elt.leaf 131 0 0 []] :=
  ⟨pairwise_Sort', fun ctx l t => filter_Sort' ctx t l, by rfl⟩

/-! ## The master element's state

The observable state of an `EbmlMaster` object: the owned child list and
semantic context, the checksum enable flag and cached checksum code
(src/ebml/EbmlMaster.h lines 172-177), plus the finite-size flag and cached
data size inherited from `EbmlElement` (modelled from spec section 3:
`sizeIsFinite`, `dataSize`). -/

structure EbmlMasterState where
  ElementList : List Elt
  Context : SemanticContext
  bChecksumUsed : Bool
  Checksum : Nat
  sizeIsFinite : Bool
  Size : Nat

/-- The `EbmlMaster(aContext, bSizeIsKnown)` constructor state: empty child
list, checksum off (`bChecksumUsedByDefault = false`, src line 48). -/
def freshMaster (aContext : SemanticContext) (bSizeIsKnown : Bool := true) :
    EbmlMasterState :=
  { ElementList := [], Context := aContext, bChecksumUsed := false,
    Checksum := 0, sizeIsFinite := bSizeIsKnown, Size := 0 }

/-- Accessor `IsFiniteSize` inherited from `EbmlElement`. -/
def IsFiniteSize (m : EbmlMasterState) : Bool := m.sizeIsFinite

/-- Source `EbmlMaster::ListSize` (src line 118): the number of children. -/
def ListSize (m : EbmlMasterState) : Nat := m.ElementList.length

/-- Source `EbmlMaster::IsDefaultValue` (src lines 126-128): `ElementList.size() == 0`. -/
def IsDefaultValue (m : EbmlMasterState) : Bool := m.ElementList.length == 0

/-- Claim C9: `IsDefaultValue` returns true exactly when the child list is
empty — it equals the test `ListSize() == 0`. -/
theorem isDefaultValue_iff_listSize (m : EbmlMasterState) :
    IsDefaultValue m = (ListSize m == 0) ∧ (IsDefaultValue m = true ↔ ListSize m = 0) :=
  ⟨rfl, by simp [IsDefaultValue, ListSize]⟩

/-- Modelled from the spec: `SetSizeIsFinite` of `EbmlElement` (not under
src/) stores the finite/unknown-size flag of spec section 3. -/
def SetSizeIsFinite (m : EbmlMasterState) (b : Bool) : EbmlMasterState :=
  { m with sizeIsFinite := b }

/-- Source `EbmlMaster::SetSizeInfinite` (src line 71):
`{SetSizeIsFinite(!aIsInfinite); return true;}`. -/
def SetSizeInfinite (m : EbmlMasterState) (aIsInfinite : Bool) :
    EbmlMasterState × Bool :=
  (SetSizeIsFinite m (!aIsInfinite), true)

/-- Claim C10: `SetSizeInfinite b` sets the `sizeIsFinite` flag to the
negation of `b`, always returns true, and changes nothing else. -/
theorem setSizeInfinite_spec (m : EbmlMasterState) (b : Bool) :
    (SetSizeInfinite m b).1.sizeIsFinite = !b ∧ (SetSizeInfinite m b).2 = true ∧
      (SetSizeInfinite m b).1.ElementList = m.ElementList ∧
      (SetSizeInfinite m b).1.Context = m.Context ∧
      (SetSizeInfinite m b).1.bChecksumUsed = m.bChecksumUsed ∧
      (SetSizeInfinite m b).1.Checksum = m.Checksum ∧
      (SetSizeInfinite m b).1.Size = m.Size :=
  ⟨rfl, rfl, rfl, rfl, rfl, rfl, rfl⟩

/-- Shallow embedding of `EbmlMaster::GetSize` exactly as written in the
source (src/ebml/EbmlMaster.h lines 74-79): when `IsFiniteSize()` holds it
calls itself again, else it returns `(0-1)` on `uint64`, i.e. `2 ^ 64 - 1`.
The self-call is modelled with explicit recursion fuel; `none` means the call
has not returned within that depth. -/
def GetSize (m : EbmlMasterState) : Nat → Option Nat
  | 0 => none
  | fuel + 1 => if IsFiniteSize m then GetSize m fuel else some (2 ^ 64 - 1)

/-- The accessor as the spec words it: the cached resolved content size for a
finite-size container, the unknown-size pattern otherwise. -/
def GetSize_specModel (m : EbmlMasterState) : Nat :=
  if IsFiniteSize m then m.Size else 2 ^ 64 - 1

/-- Claim C1 (code bug): on every finite-size container the source's
`GetSize` recurses into itself unconditionally — it never returns, at any
recursion depth — whereas the accessor the spec describes returns the cached
`dataSize`.  Upstream libebml returns the cached `Size` member at this spot. -/
theorem getSize_diverges_on_finite (m : EbmlMasterState)
    (h : IsFiniteSize m = true) :
    ∀ fuel : Nat, GetSize m fuel = none ∧ GetSize_specModel m = m.Size := by
  intro fuel
  refine ⟨?_, by simp [GetSize_specModel, h]⟩
  induction fuel with
  | zero => rfl
  | succ fuel ih => simp [GetSize, h, ih]

theorem getSize_diverges_on_finite_witness :
    IsFiniteSize ⟨[], [], false, 0, true, 5⟩ = true ∧
      GetSize ⟨[], [], false, 0, true, 5⟩ 100 = none ∧
      GetSize_specModel ⟨[], [], false, 0, true, 5⟩ = 5 :=
  ⟨by rfl, (getSize_diverges_on_finite ⟨[], [], false, 0, true, 5⟩ (by rfl) 100).1,
    (getSize_diverges_on_finite ⟨[], [], false, 0, true, 5⟩ (by rfl) 100).2⟩

/-! ## Mandatory children -/

/-- A schema-default instance of a child type, as produced by the factory
capability of spec section 6. -/
def defaultElt (i : Nat) : Elt := Elt.leaf i 0 0 []

/-- Modelled from the spec (section 4.5): `CheckMandatory` is true iff every
type the context marks mandatory has at least one matching child present
(one level deep). -/
def CheckMandatory (m : EbmlMasterState) : Bool :=
  m.Context.all fun s =>
    !s.mandatory || m.ElementList.any (fun e => eltId e == s.id)

/-- The context entries that are mandatory but have no matching child yet. -/
def mandatoryAbsent (m : EbmlMasterState) : List SemEntry :=
  m.Context.filter fun s =>
    s.mandatory && !(m.ElementList.any (fun e => eltId e == s.id))

/-- Modelled from the spec (section 4.5): `ProcessMandatory` appends a
default instance of every mandatory type not yet present. -/
def ProcessMandatory (m : EbmlMasterState) : EbmlMasterState :=
  { m with ElementList :=
      m.ElementList ++ (mandatoryAbsent m).map (fun s => defaultElt s.id) }

theorem checkMandatory_processMandatory (m : EbmlMasterState) :
    CheckMandatory (ProcessMandatory m) = true := by
  rw [CheckMandatory, List.all_eq_true]
  intro s hs
  by_cases hm : s.mandatory = true
  · by_cases hp : m.ElementList.any (fun e => eltId e == s.id) = true
    · simp only [ProcessMandatory, List.any_append, hp, Bool.true_or, Bool.or_true]
    · have hmem : defaultElt s.id ∈ (ProcessMandatory m).ElementList := by
        simp only [ProcessMandatory, mandatoryAbsent, List.mem_append]
        right
        exact List.mem_map_of_mem _ (List.mem_filter.mpr ⟨hs, by simp [hm, hp]⟩)
      have hany : (ProcessMandatory m).ElementList.any (fun e => eltId e == s.id) = true :=
        List.any_eq_true.mpr ⟨defaultElt s.id, hmem, by simp [defaultElt, eltId]⟩
      simp only [hany, Bool.or_true]
  · simp only [Bool.not_eq_true] at hm
    simp [hm]

/-- Claim C5: for every semantic context with at least one mandatory child
type, running `ProcessMandatory` on a freshly constructed container makes a
subsequent `CheckMandatory` call return true. -/
theorem processMandatory_checkMandatory (ctx : SemanticContext)
    (bSizeIsKnown : Bool) (_hmand : ctx.any (fun s => s.mandatory) = true) :
    CheckMandatory (ProcessMandatory (freshMaster ctx bSizeIsKnown)) = true :=
  checkMandatory_processMandatory _

theorem processMandatory_checkMandatory_witness :
    ([⟨129, true⟩] : SemanticContext).any (fun s => s.mandatory) = true ∧
      CheckMandatory (ProcessMandatory (freshMaster [⟨129, true⟩] true)) = true :=
  ⟨by rfl, processMandatory_checkMandatory [⟨129, true⟩] true (by rfl)⟩

/-! ## Checksums

Modelled from the spec: the external "Checksum Unit" (`EbmlCrc32`) computes a
standard CRC-32 code over rendered content bytes; the container owns only the
enable flag and the cached code and delegates the arithmetic. -/

/-- One bit step of the CRC-32 shift register (IEEE polynomial, reflected). -/
def crc32Step (c : Nat) : Nat :=
  if c % 2 = 1 then (c / 2) ^^^ 0xEDB88320 else c / 2

def crc32Rounds : Nat → Nat → Nat
  | 0, c => c
  | k + 1, c => crc32Rounds k (crc32Step c)

/-- Fold one data byte into the CRC-32 state. -/
def crc32Update (c b : Nat) : Nat :=
  crc32Rounds 8 (c ^^^ (b % 256))

/-- CRC-32 of a byte string (`compute(bytes) -> code` of spec section 6). -/
def crc32 (data : List Nat) : Nat :=
  (data.foldl crc32Update 0xFFFFFFFF) ^^^ 0xFFFFFFFF

/-- Source `EbmlMaster::EnableChecksum` (src line 153). -/
def EnableChecksum (m : EbmlMasterState) (bIsEnabled : Bool) : EbmlMasterState :=
  { m with bChecksumUsed := bIsEnabled }

/-- Source `EbmlMaster::HasChecksum` (src line 154). -/
def HasChecksum (m : EbmlMasterState) : Bool := m.bChecksumUsed

/-- Source `EbmlMaster::GetCrc32` (src line 156): the stored code. -/
def GetCrc32 (m : EbmlMasterState) : Nat := m.Checksum

/-- Source `EbmlMaster::ForceChecksum` (src lines 157-160): store the given code and
turn the checksum flag on. -/
def ForceChecksum (m : EbmlMasterState) (NewChecksum : Nat) : EbmlMasterState :=
  { m with Checksum := NewChecksum, bChecksumUsed := true }

/-- Modelled from the spec: `VerifyChecksum` (declared src line 155) is a
pure query — recompute the code over the container's rendered content and
compare it with the stored code; vacuously true when checksums are off.
It never fails or blocks: reading and rendering do not consult it. -/
def VerifyChecksum (m : EbmlMasterState) : Bool :=
  !m.bChecksumUsed || (crc32 (RenderData m.ElementList) == m.Checksum)

/-- Claim C8: checksum mismatches are reported only through the verify
query.  After storing the code for the current content via `ForceChecksum`,
verification succeeds; after the content is mutated, `VerifyChecksum`
returns false against the stale stored code; and it returns true again once
the code is recomputed and re-stored with `ForceChecksum`. -/
theorem verifyChecksum_scenario (m : EbmlMasterState) (mutated : List Elt)
    (hdiff : crc32 (RenderData mutated) ≠ crc32 (RenderData m.ElementList)) :
    VerifyChecksum (ForceChecksum m (crc32 (RenderData m.ElementList))) = true ∧
      VerifyChecksum { ForceChecksum m (crc32 (RenderData m.ElementList)) with
          ElementList := mutated } = false ∧
      VerifyChecksum (ForceChecksum { ForceChecksum m (crc32 (RenderData m.ElementList)) with
          ElementList := mutated } (crc32 (RenderData mutated))) = true := by
  refine ⟨?_, ?_, ?_⟩
  · simp [VerifyChecksum, ForceChecksum]
  · simp [VerifyChecksum, ForceChecksum, hdiff]
  · simp [VerifyChecksum, ForceChecksum]

theorem verifyChecksum_scenario_witness :
    crc32 (RenderData [Elt.leaf 129 0 1 [8]])
        ≠ crc32 (RenderData [Elt.leaf 129 0 1 [7]]) ∧
      VerifyChecksum (ForceChecksum ⟨[Elt.leaf 129 0 1 [7]], [], false, 0, true, 0⟩
          (crc32 (RenderData [Elt.leaf 129 0 1 [7]]))) = true ∧
      VerifyChecksum { ForceChecksum ⟨[Elt.leaf 129 0 1 [7]], [], false, 0, true, 0⟩
          (crc32 (RenderData [Elt.leaf 129 0 1 [7]])) with
          ElementList := [Elt.leaf 129 0 1 [8]] } = false ∧
      VerifyChecksum (ForceChecksum
        { ForceChecksum ⟨[Elt.leaf 129 0 1 [7]], [], false, 0, true, 0⟩
            (crc32 (RenderData [Elt.leaf 129 0 1 [7]])) with
            ElementList := [Elt.leaf 129 0 1 [8]] }
        (crc32 (RenderData [Elt.leaf 129 0 1 [8]]))) = true := by
  refine ⟨by decide, ?_⟩
  exact verifyChecksum_scenario ⟨[Elt.leaf 129 0 1 [7]], [], false, 0, true, 0⟩
    [Elt.leaf 129 0 1 [8]] (by decide)

end LibEbml
